import Mathlib

/-!
Verification of the Hyperband / successive-halving resource-allocation
search engine described by this repository.

The repository itself ships only instructional notebooks; the sole
machine-checkable artifact is the Hyperband allocation table for
`max_iter = 81, eta = 3` in
`3_practical_aspects_deep_learning/1_improving_deep_neural_networks/3.1.6_hyperparameter_tuning.ipynb`
(transcribed below as `refTable`).  The engine (`run`) is therefore
modelled from the specification, with the notebook table as the
acceptance check for the allocation schedule.  Configurations are opaque
comparable keys, modelled as `Nat`; scores are `Option Int` where `none`
is the worst-possible sentinel recorded when `evaluate_fn` raises.
-/

/-- Modelled from the spec: the error outcomes of `run` (`InvalidSpaceError`,
`InvalidParameterError`) together with the designated "no valid result"
outcome returned when every configuration fails; the engine itself is not
present in the repository sources. -/
inductive HBError where
  | invalidSpace : HBError
  | invalidParameter : HBError
  | noValidResult : HBError
deriving DecidableEq, Repr

/-- Modelled from the spec: one (configuration, resource) evaluation.
`cfg` is the opaque configuration key, `idx` the sample order inside the
bracket (the documented deterministic tie-break), `score` the recorded
result, `none` being the worst sentinel used when `evaluate_fn` raised. -/
structure Trial where
  cfg : Nat
  idx : Nat
  score : Option Int
deriving DecidableEq, Repr

/-- Modelled from the spec: one elimination round of a bracket at a fixed
resource level `res`, holding the surviving trials' scores. -/
structure Rung where
  res : Nat
  trials : List Trial
deriving DecidableEq, Repr

/-- Modelled from the spec: one full successive-halving run: its bracket
index `s`, the configurations sampled for it, and its rungs. -/
structure BracketResult where
  s : Nat
  sampled : List Nat
  rungs : List Rung
deriving DecidableEq, Repr

/-- Order on recorded scores with the failure sentinel `none` strictly
below every real score: `sentinelLtB x y` means `x` is strictly worse
than `y`. -/
def sentinelLtB : Option Int → Option Int → Bool
  | _, none => false
  | none, some _ => true
  | some u, some v => decide (u < v)

/-- Ranking used at a halving boundary: `rankB a b` holds when trial `a`
is ranked no worse than `b` — higher score first, ties broken by earlier
sample order (`idx`). -/
def rankB (a b : Trial) : Bool :=
  sentinelLtB b.score a.score || (a.score == b.score && Nat.ble a.idx b.idx)

/-- The ranking as a decidable relation for sorting. -/
def rankRel (a b : Trial) : Prop := rankB a b = true

instance : DecidableRel rankRel := fun a b =>
  inferInstanceAs (Decidable (rankB a b = true))

/-- The (configuration, sample-order) identities carried by a rung. -/
def pairsOf (rg : Rung) : List (Nat × Nat) :=
  rg.trials.map fun t => (t.cfg, t.idx)

/-- Evaluate every configuration of the current population at resource
`r` via the black-box `evaluate_fn`, recording `none` (the worst
sentinel) for a configuration on which it raised. -/
def evalRung (f : Nat → Nat → Option Int) (r : Nat) (cfgs : List (Nat × Nat)) : Rung :=
  ⟨r, cfgs.map fun p => ⟨p.1, p.2, f p.1 r⟩⟩

/-- Keep the top `floor(n_i / eta)` trials of a rung by score, ties
broken by earlier sample order; the rest are discarded permanently. -/
def nextBase (eta : Nat) (rg : Rung) : List (Nat × Nat) :=
  ((List.insertionSort rankRel rg.trials).take (rg.trials.length / eta)).map
    fun t => (t.cfg, t.idx)

/-- Modelled from the spec: the successive-halving rung loop of one
bracket.  Evaluate the population at resource `r`; stop as soon as at
most one configuration remains or the next resource level `r * eta`
would exceed `max_iter`; otherwise keep the top `floor(n / eta)` and
repeat at resource `r * eta`.  `fuel` is a structural bound on the
number of rungs; every call site passes the population size, which the
lemmas below show is never exhausted. -/
def shLoopF (maxIter eta : Nat) (f : Nat → Nat → Option Int) :
    Nat → List (Nat × Nat) → Nat → List Rung
  | 0, cfgs, r => [evalRung f r cfgs]
  | fuel + 1, cfgs, r =>
    let rg := evalRung f r cfgs
    if 1 < cfgs.length ∧ r * eta ≤ maxIter then
      rg :: shLoopF maxIter eta f fuel (nextBase eta rg) (r * eta)
    else [rg]

/-- Modelled from the spec: the deterministic pseudo-random generator
fixing the run's seed (a standard linear congruential step). -/
def lcg (s : Nat) : Nat := (s * 1103515245 + 12345) % 2 ^ 31

/-- Modelled from the spec: sample `n` configurations from the declared
discrete search space under a fixed seed, with replacement when the
space holds fewer distinct configurations than `n` requires.  Returns
the samples and the advanced seed. -/
def sampleList (space : List Nat) : Nat → Nat → List Nat × Nat
  | seed, 0 => ([], seed)
  | seed, n + 1 =>
    let s' := lcg seed
    let rest := sampleList space s' n
    (space.getD (s' % space.length) 0 :: rest.1, rest.2)

/-- Fuelled floor-logarithm: the largest `k` with `b ^ k ≤ n` (for
`2 ≤ b`, `1 ≤ n`, and fuel at least `n`); written structurally so that
it evaluates inside the kernel. -/
def natLogF : Nat → Nat → Nat → Nat
  | 0, _, _ => 0
  | fuel + 1, b, n => if 2 ≤ b ∧ b ≤ n then natLogF fuel b (n / b) + 1 else 0

/-- `s_max = floor(log_eta(max_iter))`, the largest bracket index. -/
def sMaxOf (maxIter eta : Nat) : Nat := natLogF maxIter eta maxIter

/-- The total per-bracket budget `B = (s_max + 1) * max_iter`. -/
def bigB (maxIter eta : Nat) : Nat := (sMaxOf maxIter eta + 1) * maxIter

/-- Initial number of configurations of bracket `s`:
`ceil(floor(B / max_iter / (s+1)) * eta ^ s)` — the standard published
Hyperband reference rounding, which reproduces the notebook's allocation
table (the ceiling of an integer being itself). -/
def nInit (maxIter eta s : Nat) : Nat :=
  (bigB maxIter eta / maxIter / (s + 1)) * eta ^ s

/-- Initial per-configuration resource of bracket `s`:
`max_iter * eta ^ (-s)`. -/
def rInit (maxIter eta s : Nat) : Nat := maxIter / eta ^ s

/-- Attach the sample order to each sampled configuration, starting at
index `i`. -/
def withIdx : List Nat → Nat → List (Nat × Nat)
  | [], _ => []
  | c :: cs, i => (c, i) :: withIdx cs (i + 1)

/-- Modelled from the spec: one full bracket — sample `nInit s`
configurations at the bracket's seed, then run the successive-halving
rung loop from resource `rInit s`. -/
def mkBracket (space : List Nat) (maxIter eta : Nat) (f : Nat → Nat → Option Int)
    (s seed : Nat) : BracketResult :=
  let cfgs := (sampleList space seed (nInit maxIter eta s)).1
  let init := withIdx cfgs 0
  ⟨s, cfgs, shLoopF maxIter eta f init.length init (rInit maxIter eta s)⟩

/-- Modelled from the spec: the outer loop over the bracket indices,
threading the seed through the brackets' sampling. -/
def runBrackets (space : List Nat) (maxIter eta : Nat) (f : Nat → Nat → Option Int) :
    List Nat → Nat → List BracketResult
  | [], _ => []
  | s :: rest, seed =>
    mkBracket space maxIter eta f s seed ::
      runBrackets space maxIter eta f rest (sampleList space seed (nInit maxIter eta s)).2

/-- Modelled from the spec: the complete trace of a run — all brackets
`s = s_max, s_max - 1, …, 0` in order. -/
def runTrace (space : List Nat) (maxIter eta : Nat) (f : Nat → Nat → Option Int)
    (seed : Nat) : List BracketResult :=
  runBrackets space maxIter eta f ((List.range (sMaxOf maxIter eta + 1)).reverse) seed

/-- All trials recorded anywhere in a run's trace. -/
def allTrials (trace : List BracketResult) : List Trial :=
  (((trace.map fun b => b.rungs).flatten).map fun rg => rg.trials).flatten

/-- The successfully evaluated (configuration, score) observations of a
trace; trials on which `evaluate_fn` raised are excluded. -/
def successes (trace : List BracketResult) : List (Nat × Int) :=
  (allTrials trace).filterMap fun t => t.score.map fun v => (t.cfg, v)

/-- Fold step selecting the best observed successful score (first such
observation wins ties). -/
def bestStep (acc : Option (Nat × Int)) (p : Nat × Int) : Option (Nat × Int) :=
  match acc with
  | none => some p
  | some q => if q.2 < p.2 then some p else acc

/-- The best configuration and score observed across all brackets, or
`none` when no evaluation ever succeeded. -/
def bestOf (trace : List BracketResult) : Option (Nat × Int) :=
  (successes trace).foldl bestStep none

/-- Modelled from the spec: the aggregated diagnostic surfaced after the
run — the trials whose evaluation raised. -/
def runDiagnostics (trace : List BracketResult) : List Trial :=
  (allTrials trace).filter fun t => t.score.isNone

/-- All configurations sampled over the whole run. -/
def allSampled (trace : List BracketResult) : List Nat :=
  (trace.map fun b => b.sampled).flatten

/-- Modelled from the spec: the engine's public contract
`run(search_space, max_iter, eta, evaluate_fn) → best_configuration,
best_score`.  Fails fast with `invalidSpace` on an empty space and with
`invalidParameter` on `eta < 2` or non-positive `max_iter`; returns
`noValidResult` when every configuration failed, and otherwise the
configuration with the best observed score. -/
def run (space : List Nat) (maxIter eta : Nat) (f : Nat → Nat → Option Int)
    (seed : Nat) : Except HBError (Nat × Int) :=
  if space = [] then .error .invalidSpace
  else if eta < 2 ∨ maxIter = 0 then .error .invalidParameter
  else
    match bestOf (runTrace space maxIter eta f seed) with
    | none => .error .noValidResult
    | some p => .ok p

/-- The `(s, [(n_i, r_i), …])` schedule of a trace: each bracket's index
together with its rungs' population sizes and resource levels. -/
def runSchedule (trace : List BracketResult) : List (Nat × List (Nat × Nat)) :=
  trace.map fun b => (b.s, b.rungs.map fun rg => (rg.trials.length, rg.res))

/-- The per-bracket rung population counts of a trace. -/
def countsOf (trace : List BracketResult) : List (List Nat) :=
  trace.map fun b => b.rungs.map fun rg => rg.trials.length

/-- The `(n, r)` shape of the successive-halving rung loop, abstracted
from the scores: the arithmetic skeleton of `shLoopF`. -/
def shapeLoop (maxIter eta : Nat) : Nat → Nat → Nat → List (Nat × Nat)
  | 0, n, r => [(n, r)]
  | fuel + 1, n, r =>
    if 1 < n ∧ r * eta ≤ maxIter then
      (n, r) :: shapeLoop maxIter eta fuel (n / eta) (r * eta)
    else [(n, r)]

/-- The Hyperband allocation table for `max_iter = 81, eta = 3`
transcribed verbatim from the notebook
`3.1.6_hyperparameter_tuning.ipynb`: for each bracket `s` the successive
rungs' `(n_i, r_i)` pairs. -/
def refTable : List (Nat × List (Nat × Nat)) :=
  [ (4, [(81, 1), (27, 3), (9, 9), (3, 27), (1, 81)])
  , (3, [(27, 3), (9, 9), (3, 27), (1, 81)])
  , (2, [(9, 9), (3, 27), (1, 81)])
  , (1, [(6, 27), (2, 81)])
  , (0, [(5, 81)]) ]

/-- Follows the spec's words (for comparison with the source table):
the spec's stated closed form `n = ceil(B / max_iter * eta^s / (s+1))`
read as real-valued arithmetic. -/
def specFormulaN (maxIter eta s : Nat) : Nat :=
  Nat.ceil ((bigB maxIter eta : ℚ) / (maxIter : ℚ) * (eta : ℚ) ^ s / ((s : ℚ) + 1))

/-- Follows the spec's words: the spec's starting resource
`r = max_iter * eta^(-s)` read as real-valued arithmetic. -/
def specFormulaR (maxIter eta s : Nat) : ℚ :=
  (maxIter : ℚ) / (eta : ℚ) ^ s

/-! ### Basic lemmas -/

theorem pairsOf_evalRung (f : Nat → Nat → Option Int) (r : Nat) (cfgs : List (Nat × Nat)) :
    pairsOf (evalRung f r cfgs) = cfgs := by
  simp [pairsOf, evalRung, List.map_map, Function.comp_def]

theorem trials_length_evalRung (f : Nat → Nat → Option Int) (r : Nat)
    (cfgs : List (Nat × Nat)) : (evalRung f r cfgs).trials.length = cfgs.length := by
  simp [evalRung]

theorem res_evalRung (f : Nat → Nat → Option Int) (r : Nat) (cfgs : List (Nat × Nat)) :
    (evalRung f r cfgs).res = r := rfl

theorem length_pairsOf (rg : Rung) : (pairsOf rg).length = rg.trials.length := by
  simp [pairsOf]

theorem nextBase_length (eta : Nat) (rg : Rung) :
    (nextBase eta rg).length = rg.trials.length / eta := by
  rw [nextBase, List.length_map, List.length_take, List.length_insertionSort]
  exact Nat.min_eq_left (Nat.div_le_self _ _)

theorem nextBase_subset (eta : Nat) (rg : Rung) :
    ∀ p ∈ nextBase eta rg, p ∈ pairsOf rg := by
  intro p hp
  simp only [nextBase, List.mem_map] at hp
  obtain ⟨t, ht, rfl⟩ := hp
  have h1 : t ∈ List.insertionSort rankRel rg.trials := List.take_subset _ _ ht
  have h2 : t ∈ rg.trials := (List.mem_insertionSort rankRel).mp h1
  exact List.mem_map.mpr ⟨t, h2, rfl⟩

theorem nextBase_idx_nodup (eta : Nat) (rg : Rung)
    (h : (rg.trials.map Trial.idx).Nodup) :
    ((nextBase eta rg).map Prod.snd).Nodup := by
  have hperm : ((List.insertionSort rankRel rg.trials).map Trial.idx).Perm
      (rg.trials.map Trial.idx) :=
    (List.perm_insertionSort rankRel rg.trials).map Trial.idx
  have hsorted : ((List.insertionSort rankRel rg.trials).map Trial.idx).Nodup :=
    hperm.nodup_iff.mpr h
  have hmap : (nextBase eta rg).map Prod.snd =
      ((List.insertionSort rankRel rg.trials).map Trial.idx).take (rg.trials.length / eta) := by
    simp only [nextBase, List.map_map, List.map_take]
    rfl
  rw [hmap]
  exact (List.take_sublist _ _).nodup hsorted

/-! ### Lemmas on the fuelled rung loop -/

theorem shLoopF_zero (maxIter eta : Nat) (f : Nat → Nat → Option Int)
    (cfgs : List (Nat × Nat)) (r : Nat) :
    shLoopF maxIter eta f 0 cfgs r = [evalRung f r cfgs] := rfl

theorem shLoopF_succ (maxIter eta : Nat) (f : Nat → Nat → Option Int)
    (fuel : Nat) (cfgs : List (Nat × Nat)) (r : Nat) :
    shLoopF maxIter eta f (fuel + 1) cfgs r =
      if 1 < cfgs.length ∧ r * eta ≤ maxIter then
        evalRung f r cfgs ::
          shLoopF maxIter eta f fuel (nextBase eta (evalRung f r cfgs)) (r * eta)
      else [evalRung f r cfgs] := rfl

theorem shLoopF_cons (maxIter eta : Nat) (f : Nat → Nat → Option Int)
    (fuel : Nat) (cfgs : List (Nat × Nat)) (r : Nat) :
    ∃ tl, shLoopF maxIter eta f fuel cfgs r = evalRung f r cfgs :: tl := by
  cases fuel with
  | zero => exact ⟨[], rfl⟩
  | succ n =>
    by_cases h : 1 < cfgs.length ∧ r * eta ≤ maxIter
    · exact ⟨_, by rw [shLoopF_succ, if_pos h]⟩
    · exact ⟨[], by rw [shLoopF_succ, if_neg h]⟩

theorem shLoopF_ne_nil (maxIter eta : Nat) (f : Nat → Nat → Option Int)
    (fuel : Nat) (cfgs : List (Nat × Nat)) (r : Nat) :
    shLoopF maxIter eta f fuel cfgs r ≠ [] := by
  obtain ⟨tl, htl⟩ := shLoopF_cons maxIter eta f fuel cfgs r
  simp [htl]

theorem shLoopF_head? (maxIter eta : Nat) (f : Nat → Nat → Option Int)
    (fuel : Nat) (cfgs : List (Nat × Nat)) (r : Nat) :
    (shLoopF maxIter eta f fuel cfgs r).head? = some (evalRung f r cfgs) := by
  obtain ⟨tl, htl⟩ := shLoopF_cons maxIter eta f fuel cfgs r
  simp [htl]

/-- The relation between a rung and its successor rung: the resource is
multiplied by `eta`, and the surviving population is exactly the rung's
top `floor(n / eta)`. -/
def stepRel (eta : Nat) (a b : Rung) : Prop :=
  b.res = a.res * eta ∧ pairsOf b = nextBase eta a

theorem shLoopF_chain (maxIter eta : Nat) (f : Nat → Nat → Option Int) :
    ∀ (fuel : Nat) (cfgs : List (Nat × Nat)) (r : Nat),
      List.Chain' (stepRel eta) (shLoopF maxIter eta f fuel cfgs r)
  | 0, cfgs, r => by rw [shLoopF_zero]; simp
  | fuel + 1, cfgs, r => by
    by_cases h : 1 < cfgs.length ∧ r * eta ≤ maxIter
    · rw [shLoopF_succ, if_pos h, List.chain'_cons']
      refine ⟨?_, shLoopF_chain maxIter eta f fuel _ _⟩
      intro y hy
      rw [shLoopF_head? maxIter eta f fuel _ _] at hy
      cases hy
      exact ⟨rfl, pairsOf_evalRung _ _ _⟩
    · rw [shLoopF_succ, if_neg h]; simp

theorem shLoopF_last_stop (maxIter eta : Nat) (f : Nat → Nat → Option Int)
    (heta : 2 ≤ eta) :
    ∀ (fuel : Nat) (cfgs : List (Nat × Nat)) (r : Nat), cfgs.length ≤ fuel →
      ∀ rg, (shLoopF maxIter eta f fuel cfgs r).getLast? = some rg →
        rg.trials.length ≤ 1 ∨ maxIter < rg.res * eta
  | 0, cfgs, r => by
    intro hle rg hrg
    rw [shLoopF_zero] at hrg
    simp only [List.getLast?_singleton, Option.some_inj] at hrg
    subst hrg
    rw [trials_length_evalRung]
    omega
  | fuel + 1, cfgs, r => by
    intro hle rg hrg
    by_cases h : 1 < cfgs.length ∧ r * eta ≤ maxIter
    · rw [shLoopF_succ, if_pos h] at hrg
      obtain ⟨tl, htl⟩ := shLoopF_cons maxIter eta f fuel
        (nextBase eta (evalRung f r cfgs)) (r * eta)
      rw [htl, List.getLast?_cons_cons, ← htl] at hrg
      have hlen : (nextBase eta (evalRung f r cfgs)).length ≤ fuel := by
        rw [nextBase_length, trials_length_evalRung]
        have hdiv : cfgs.length / eta < cfgs.length :=
          Nat.div_lt_self (by omega) (by omega)
        omega
      exact shLoopF_last_stop maxIter eta f heta fuel _ (r * eta) hlen rg hrg
    · rw [shLoopF_succ, if_neg h] at hrg
      simp only [List.getLast?_singleton, Option.some_inj] at hrg
      subst hrg
      rw [trials_length_evalRung, res_evalRung]
      omega

theorem shLoopF_dropLast_guard (maxIter eta : Nat) (f : Nat → Nat → Option Int) :
    ∀ (fuel : Nat) (cfgs : List (Nat × Nat)) (r : Nat),
      ∀ rg ∈ (shLoopF maxIter eta f fuel cfgs r).dropLast,
        1 < rg.trials.length ∧ rg.res * eta ≤ maxIter
  | 0, cfgs, r => by
    intro rg hrg
    rw [shLoopF_zero] at hrg
    simp at hrg
  | fuel + 1, cfgs, r => by
    intro rg hrg
    by_cases h : 1 < cfgs.length ∧ r * eta ≤ maxIter
    · rw [shLoopF_succ, if_pos h] at hrg
      obtain ⟨tl, htl⟩ := shLoopF_cons maxIter eta f fuel
        (nextBase eta (evalRung f r cfgs)) (r * eta)
      rw [htl, List.dropLast_cons₂, ← htl] at hrg
      rcases List.mem_cons.mp hrg with hrg | hrg
      · subst hrg
        rw [trials_length_evalRung, res_evalRung]
        exact h
      · exact shLoopF_dropLast_guard maxIter eta f fuel _ (r * eta) rg hrg
    · rw [shLoopF_succ, if_neg h] at hrg
      simp at hrg

theorem shLoopF_mem_pairs (maxIter eta : Nat) (f : Nat → Nat → Option Int) :
    ∀ (fuel : Nat) (cfgs : List (Nat × Nat)) (r : Nat),
      ∀ rg ∈ shLoopF maxIter eta f fuel cfgs r, ∀ t ∈ rg.trials, (t.cfg, t.idx) ∈ cfgs
  | 0, cfgs, r => by
    intro rg hrg t ht
    rw [shLoopF_zero] at hrg
    simp only [List.mem_singleton] at hrg
    subst hrg
    simp only [evalRung, List.mem_map] at ht
    obtain ⟨p, hp, rfl⟩ := ht
    exact hp
  | fuel + 1, cfgs, r => by
    intro rg hrg t ht
    by_cases h : 1 < cfgs.length ∧ r * eta ≤ maxIter
    · rw [shLoopF_succ, if_pos h] at hrg
      rcases List.mem_cons.mp hrg with hrg | hrg
      · subst hrg
        simp only [evalRung, List.mem_map] at ht
        obtain ⟨p, hp, rfl⟩ := ht
        exact hp
      · have hmem := shLoopF_mem_pairs maxIter eta f fuel _ (r * eta) rg hrg t ht
        have hsub := nextBase_subset eta (evalRung f r cfgs) _ hmem
        rwa [pairsOf_evalRung] at hsub
    · rw [shLoopF_succ, if_neg h] at hrg
      simp only [List.mem_singleton] at hrg
      subst hrg
      simp only [evalRung, List.mem_map] at ht
      obtain ⟨p, hp, rfl⟩ := ht
      exact hp

theorem shLoopF_score (maxIter eta : Nat) (f : Nat → Nat → Option Int) :
    ∀ (fuel : Nat) (cfgs : List (Nat × Nat)) (r : Nat),
      ∀ rg ∈ shLoopF maxIter eta f fuel cfgs r, ∀ t ∈ rg.trials, t.score = f t.cfg rg.res
  | 0, cfgs, r => by
    intro rg hrg t ht
    rw [shLoopF_zero] at hrg
    simp only [List.mem_singleton] at hrg
    subst hrg
    simp only [evalRung, List.mem_map] at ht
    obtain ⟨p, hp, rfl⟩ := ht
    rfl
  | fuel + 1, cfgs, r => by
    intro rg hrg t ht
    by_cases h : 1 < cfgs.length ∧ r * eta ≤ maxIter
    · rw [shLoopF_succ, if_pos h] at hrg
      rcases List.mem_cons.mp hrg with hrg | hrg
      · subst hrg
        simp only [evalRung, List.mem_map] at ht
        obtain ⟨p, hp, rfl⟩ := ht
        rfl
      · exact shLoopF_score maxIter eta f fuel _ (r * eta) rg hrg t ht
    · rw [shLoopF_succ, if_neg h] at hrg
      simp only [List.mem_singleton] at hrg
      subst hrg
      simp only [evalRung, List.mem_map] at ht
      obtain ⟨p, hp, rfl⟩ := ht
      rfl

theorem shLoopF_idx_nodup (maxIter eta : Nat) (f : Nat → Nat → Option Int) :
    ∀ (fuel : Nat) (cfgs : List (Nat × Nat)) (r : Nat), (cfgs.map Prod.snd).Nodup →
      ∀ rg ∈ shLoopF maxIter eta f fuel cfgs r, (rg.trials.map Trial.idx).Nodup
  | 0, cfgs, r => by
    intro hnd rg hrg
    rw [shLoopF_zero] at hrg
    simp only [List.mem_singleton] at hrg
    subst hrg
    simpa [evalRung, List.map_map, Function.comp_def] using hnd
  | fuel + 1, cfgs, r => by
    intro hnd rg hrg
    by_cases h : 1 < cfgs.length ∧ r * eta ≤ maxIter
    · rw [shLoopF_succ, if_pos h] at hrg
      rcases List.mem_cons.mp hrg with hrg | hrg
      · subst hrg
        simpa [evalRung, List.map_map, Function.comp_def] using hnd
      · have hnd' : ((nextBase eta (evalRung f r cfgs)).map Prod.snd).Nodup := by
          refine nextBase_idx_nodup eta _ ?_
          simpa [evalRung, List.map_map, Function.comp_def] using hnd
        exact shLoopF_idx_nodup maxIter eta f fuel _ (r * eta) hnd' rg hrg
    · rw [shLoopF_succ, if_neg h] at hrg
      simp only [List.mem_singleton] at hrg
      subst hrg
      simpa [evalRung, List.map_map, Function.comp_def] using hnd

theorem shLoopF_res_pow (maxIter eta : Nat) (f : Nat → Nat → Option Int) :
    ∀ (fuel : Nat) (cfgs : List (Nat × Nat)) (r : Nat) (i : Nat) (rg : Rung),
      (shLoopF maxIter eta f fuel cfgs r)[i]? = some rg → rg.res = r * eta ^ i
  | 0, cfgs, r, i, rg => by
    intro h
    rw [shLoopF_zero] at h
    cases i with
    | zero =>
      simp only [List.getElem?_cons_zero, Option.some_inj] at h
      subst h
      simp [res_evalRung]
    | succ j => simp at h
  | fuel + 1, cfgs, r, i, rg => by
    intro h
    by_cases hg : 1 < cfgs.length ∧ r * eta ≤ maxIter
    · rw [shLoopF_succ, if_pos hg] at h
      cases i with
      | zero =>
        simp only [List.getElem?_cons_zero, Option.some_inj] at h
        subst h
        simp [res_evalRung]
      | succ j =>
        rw [List.getElem?_cons_succ] at h
        have := shLoopF_res_pow maxIter eta f fuel
          (nextBase eta (evalRung f r cfgs)) (r * eta) j rg h
        rw [this, pow_succ]
        ring
    · rw [shLoopF_succ, if_neg hg] at h
      cases i with
      | zero =>
        simp only [List.getElem?_cons_zero, Option.some_inj] at h
        subst h
        simp [res_evalRung]
      | succ j => simp at h

theorem shLoopF_shape (maxIter eta : Nat) (f : Nat → Nat → Option Int) :
    ∀ (fuel : Nat) (cfgs : List (Nat × Nat)) (r : Nat),
      (shLoopF maxIter eta f fuel cfgs r).map (fun rg => (rg.trials.length, rg.res)) =
        shapeLoop maxIter eta fuel cfgs.length r
  | 0, cfgs, r => by
    rw [shLoopF_zero, shapeLoop]
    simp [trials_length_evalRung, res_evalRung]
  | fuel + 1, cfgs, r => by
    by_cases h : 1 < cfgs.length ∧ r * eta ≤ maxIter
    · rw [shLoopF_succ, if_pos h, shapeLoop, if_pos h, List.map_cons]
      have hrec := shLoopF_shape maxIter eta f fuel
        (nextBase eta (evalRung f r cfgs)) (r * eta)
      rw [hrec, nextBase_length, trials_length_evalRung]
      simp [trials_length_evalRung, res_evalRung]
    · rw [shLoopF_succ, if_neg h, shapeLoop, if_neg h]
      simp [trials_length_evalRung, res_evalRung]

theorem chain'_getElem? {α : Type} {R : α → α → Prop} {l : List α}
    (h : List.Chain' R l) {i : Nat} {a b : α}
    (ha : l[i]? = some a) (hb : l[i + 1]? = some b) : R a b := by
  obtain ⟨hbl, hbe⟩ := List.getElem?_eq_some_iff.mp hb
  obtain ⟨hal, hae⟩ := List.getElem?_eq_some_iff.mp ha
  have := List.chain'_iff_get.mp h i (by omega)
  simp only [List.get_eq_getElem] at this
  rw [hae, hbe] at this
  exact this

theorem shLoopF_step (maxIter eta : Nat) (f : Nat → Nat → Option Int)
    (fuel : Nat) (cfgs : List (Nat × Nat)) (r : Nat) (i : Nat) (a b : Rung)
    (ha : (shLoopF maxIter eta f fuel cfgs r)[i]? = some a)
    (hb : (shLoopF maxIter eta f fuel cfgs r)[i + 1]? = some b) :
    stepRel eta a b :=
  chain'_getElem? (shLoopF_chain maxIter eta f fuel cfgs r) ha hb

theorem shLoopF_pairs_mono (maxIter eta : Nat) (f : Nat → Nat → Option Int)
    (fuel : Nat) (cfgs : List (Nat × Nat)) (r : Nat) (k : Nat) (a : Rung)
    (ha : (shLoopF maxIter eta f fuel cfgs r)[k]? = some a) :
    ∀ m, k ≤ m → ∀ b, (shLoopF maxIter eta f fuel cfgs r)[m]? = some b →
      ∀ p ∈ pairsOf b, p ∈ pairsOf a := by
  intro m hm
  induction m, hm using Nat.le_induction with
  | base =>
    intro b hb p hp
    rw [ha, Option.some_inj] at hb
    subst hb
    exact hp
  | succ m hkm ih =>
    intro b hb p hp
    have hml : m < (shLoopF maxIter eta f fuel cfgs r).length := by
      have := (List.getElem?_eq_some_iff.mp hb).1
      omega
    obtain ⟨c, hc⟩ : ∃ c, (shLoopF maxIter eta f fuel cfgs r)[m]? = some c :=
      ⟨_, List.getElem?_eq_some_iff.mpr ⟨hml, rfl⟩⟩
    have hstep := shLoopF_step maxIter eta f fuel cfgs r m c b hc hb
    have hsub : p ∈ pairsOf c := by
      rw [hstep.2] at hp
      exact nextBase_subset eta c p hp
    exact ih c hc p hsub

/-! ### Lemmas on sampling and indexing -/

theorem withIdx_length : ∀ (cs : List Nat) (i : Nat), (withIdx cs i).length = cs.length
  | [], _ => rfl
  | _ :: cs, i => by simp [withIdx, withIdx_length cs (i + 1)]

theorem withIdx_map_fst : ∀ (cs : List Nat) (i : Nat), (withIdx cs i).map Prod.fst = cs
  | [], _ => rfl
  | c :: cs, i => by simp [withIdx, withIdx_map_fst cs (i + 1)]

theorem mem_withIdx_fst {cs : List Nat} {i : Nat} {p : Nat × Nat}
    (h : p ∈ withIdx cs i) : p.1 ∈ cs := by
  rw [← withIdx_map_fst cs i]
  exact List.mem_map.mpr ⟨p, h, rfl⟩

theorem withIdx_exists {cs : List Nat} {c : Nat} (h : c ∈ cs) :
    ∀ i : Nat, ∃ j, (c, j) ∈ withIdx cs i := by
  induction cs with
  | nil => cases h
  | cons a t ih =>
    intro i
    rcases List.mem_cons.mp h with rfl | h
    · exact ⟨i, List.mem_cons_self _ _⟩
    · obtain ⟨j, hj⟩ := ih h (i + 1)
      exact ⟨j, List.mem_cons_of_mem _ hj⟩

theorem withIdx_idx_ge : ∀ (cs : List Nat) (i : Nat), ∀ p ∈ withIdx cs i, i ≤ p.2
  | [], _ => by intro p hp; cases hp
  | c :: cs, i => by
    intro p hp
    rcases List.mem_cons.mp hp with rfl | hp
    · exact le_refl i
    · have := withIdx_idx_ge cs (i + 1) p hp
      omega

theorem withIdx_idx_nodup : ∀ (cs : List Nat) (i : Nat),
    ((withIdx cs i).map Prod.snd).Nodup
  | [], _ => by simp [withIdx]
  | c :: cs, i => by
    rw [withIdx, List.map_cons, List.nodup_cons]
    refine ⟨?_, withIdx_idx_nodup cs (i + 1)⟩
    intro hmem
    obtain ⟨p, hp, hpe⟩ := List.mem_map.mp hmem
    have := withIdx_idx_ge cs (i + 1) p hp
    omega

theorem sampleList_length (space : List Nat) :
    ∀ (n seed : Nat), (sampleList space seed n).1.length = n := by
  intro n
  induction n with
  | zero => intro seed; rfl
  | succ m ih =>
    intro seed
    simp [sampleList, ih (lcg seed)]

theorem sampleList_mem (space : List Nat) (hne : space ≠ []) :
    ∀ (n seed : Nat), ∀ c ∈ (sampleList space seed n).1, c ∈ space := by
  intro n
  induction n with
  | zero => intro seed c hc; cases hc
  | succ m ih =>
    intro seed c hc
    rw [sampleList] at hc
    rcases List.mem_cons.mp hc with rfl | hc
    · have hlen : 0 < space.length := List.length_pos.mpr hne
      have hlt : lcg seed % space.length < space.length := Nat.mod_lt _ hlen
      rw [List.getD_eq_getElem space 0 hlt]
      exact List.getElem_mem hlt
    · exact ih (lcg seed) c hc

/-! ### Lemmas on the bracket arithmetic -/

theorem pow_natLogF_le (b : Nat) (hb : 2 ≤ b) :
    ∀ (fuel n : Nat), 1 ≤ n → b ^ natLogF fuel b n ≤ n
  | 0, n => by intro hn; simpa [natLogF] using hn
  | fuel + 1, n => by
    intro hn
    rw [natLogF]
    by_cases h : 2 ≤ b ∧ b ≤ n
    · rw [if_pos h]
      have hdiv : 1 ≤ n / b := (Nat.one_le_div_iff (by omega : 0 < b)).mpr h.2
      have hrec := pow_natLogF_le b hb fuel (n / b) hdiv
      calc b ^ (natLogF fuel b (n / b) + 1) = b ^ natLogF fuel b (n / b) * b := by
            rw [pow_succ]
        _ ≤ (n / b) * b := Nat.mul_le_mul_right b hrec
        _ ≤ n := Nat.div_mul_le_self n b
    · rw [if_neg h]
      simpa using hn

theorem lt_pow_natLogF_succ (b : Nat) (hb : 2 ≤ b) :
    ∀ (fuel n : Nat), n ≤ fuel → n < b ^ (natLogF fuel b n + 1)
  | 0, n => by
    intro hn
    have : n = 0 := by omega
    subst this
    simp [natLogF]
    omega
  | fuel + 1, n => by
    intro hn
    rw [natLogF]
    by_cases h : 2 ≤ b ∧ b ≤ n
    · rw [if_pos h]
      have hfuel : n / b ≤ fuel := by
        have : n / b < n := Nat.div_lt_self (by omega) (by omega)
        omega
      have hrec := lt_pow_natLogF_succ b hb fuel (n / b) hfuel
      have h1 : n < (n / b + 1) * b :=
        (Nat.div_lt_iff_lt_mul (by omega : 0 < b)).mp (Nat.lt_succ_self _)
      have h2 : (n / b + 1) * b ≤ b ^ (natLogF fuel b (n / b) + 1) * b :=
        Nat.mul_le_mul_right b (by omega)
      calc n < (n / b + 1) * b := h1
        _ ≤ b ^ (natLogF fuel b (n / b) + 1) * b := h2
        _ = b ^ (natLogF fuel b (n / b) + 1 + 1) := by ring
    · rw [if_neg h]
      have : n < b := by
        rcases not_and_or.mp h with h' | h'
        · omega
        · omega
      simpa using this

theorem sMaxOf_eq_log (maxIter eta : Nat) (heta : 2 ≤ eta) (hmi : 1 ≤ maxIter) :
    sMaxOf maxIter eta = Nat.log eta maxIter :=
  (Nat.log_eq_of_pow_le_of_lt_pow
    (pow_natLogF_le eta heta maxIter maxIter hmi)
    (lt_pow_natLogF_succ eta heta maxIter maxIter le_rfl)).symm

theorem pow_le_of_le_sMaxOf (maxIter eta : Nat) (heta : 2 ≤ eta) (hmi : 1 ≤ maxIter)
    {s : Nat} (hs : s ≤ sMaxOf maxIter eta) : eta ^ s ≤ maxIter := by
  calc eta ^ s ≤ eta ^ sMaxOf maxIter eta :=
        Nat.pow_le_pow_right (by omega) hs
    _ ≤ maxIter := pow_natLogF_le eta heta maxIter maxIter hmi

theorem rInit_pos (maxIter eta : Nat) (heta : 2 ≤ eta) (hmi : 1 ≤ maxIter)
    {s : Nat} (hs : s ≤ sMaxOf maxIter eta) : 1 ≤ rInit maxIter eta s := by
  rw [rInit]
  exact (Nat.one_le_div_iff (Nat.pos_pow_of_pos s (by omega))).mpr
    (pow_le_of_le_sMaxOf maxIter eta heta hmi hs)

/-! ### Lemmas on best-score selection -/

theorem foldl_bestStep_acc_le :
    ∀ (l : List (Nat × Int)) (a : Nat × Int),
      ∃ p, l.foldl bestStep (some a) = some p ∧ a.2 ≤ p.2
  | [], a => ⟨a, rfl, le_refl _⟩
  | x :: xs, a => by
    by_cases h : a.2 < x.2
    · obtain ⟨p, hp, hle⟩ := foldl_bestStep_acc_le xs x
      exact ⟨p, by simpa [bestStep, h] using hp, by omega⟩
    · obtain ⟨p, hp, hle⟩ := foldl_bestStep_acc_le xs a
      exact ⟨p, by simpa [bestStep, h] using hp, hle⟩

theorem foldl_bestStep_ge_of_mem :
    ∀ (l : List (Nat × Int)) (acc : Option (Nat × Int)) (q : Nat × Int), q ∈ l →
      ∃ p, l.foldl bestStep acc = some p ∧ q.2 ≤ p.2
  | [], _, q => by intro hq; cases hq
  | x :: xs, acc, q => by
    intro hq
    rcases List.mem_cons.mp hq with rfl | hq
    · match acc with
      | none =>
        obtain ⟨p, hp, hle⟩ := foldl_bestStep_acc_le xs q
        exact ⟨p, by simpa [bestStep] using hp, hle⟩
      | some a =>
        by_cases h : a.2 < q.2
        · obtain ⟨p, hp, hle⟩ := foldl_bestStep_acc_le xs q
          exact ⟨p, by simpa [bestStep, h] using hp, hle⟩
        · obtain ⟨p, hp, hle⟩ := foldl_bestStep_acc_le xs a
          exact ⟨p, by simpa [bestStep, h] using hp, by omega⟩
    · exact foldl_bestStep_ge_of_mem xs (bestStep acc x) q hq

theorem foldl_bestStep_mem :
    ∀ (l : List (Nat × Int)) (acc : Option (Nat × Int)) (p : Nat × Int),
      l.foldl bestStep acc = some p → p ∈ l ∨ acc = some p
  | [], acc, p => by
    intro h
    exact Or.inr h
  | x :: xs, acc, p => by
    intro h
    rcases foldl_bestStep_mem xs (bestStep acc x) p h with hmem | hacc
    · exact Or.inl (List.mem_cons_of_mem _ hmem)
    · match acc with
      | none =>
        simp only [bestStep] at hacc
        exact Or.inl (List.mem_cons.mpr (Or.inl (by
          cases hacc
          rfl)))
      | some a =>
        by_cases hlt : a.2 < x.2
        · simp only [bestStep, if_pos hlt] at hacc
          exact Or.inl (List.mem_cons.mpr (Or.inl (by
            cases hacc
            rfl)))
        · simp only [bestStep, if_neg hlt] at hacc
          exact Or.inr hacc

/-! ### Lemmas on the outer bracket loop -/

theorem mem_runBrackets (space : List Nat) (maxIter eta : Nat)
    (f : Nat → Nat → Option Int) :
    ∀ (sList : List Nat) (seed : Nat) (b : BracketResult),
      b ∈ runBrackets space maxIter eta f sList seed →
      ∃ s seed', s ∈ sList ∧ b = mkBracket space maxIter eta f s seed'
  | [], _, b => by intro h; cases h
  | s :: rest, seed, b => by
    intro h
    rcases List.mem_cons.mp h with rfl | h
    · exact ⟨s, seed, List.mem_cons_self _ _, rfl⟩
    · obtain ⟨s', seed', hs', hb⟩ := mem_runBrackets space maxIter eta f rest _ b h
      exact ⟨s', seed', List.mem_cons_of_mem _ hs', hb⟩

theorem runBrackets_map_s (space : List Nat) (maxIter eta : Nat)
    (f : Nat → Nat → Option Int) :
    ∀ (sList : List Nat) (seed : Nat),
      (runBrackets space maxIter eta f sList seed).map BracketResult.s = sList
  | [], _ => rfl
  | s :: rest, seed => by
    simp [runBrackets, mkBracket, runBrackets_map_s space maxIter eta f rest]

theorem mkBracket_rungs (space : List Nat) (maxIter eta : Nat)
    (f : Nat → Nat → Option Int) (s seed : Nat) :
    (mkBracket space maxIter eta f s seed).rungs =
      shLoopF maxIter eta f
        (withIdx (sampleList space seed (nInit maxIter eta s)).1 0).length
        (withIdx (sampleList space seed (nInit maxIter eta s)).1 0)
        (rInit maxIter eta s) := rfl

theorem mkBracket_sampled (space : List Nat) (maxIter eta : Nat)
    (f : Nat → Nat → Option Int) (s seed : Nat) :
    (mkBracket space maxIter eta f s seed).sampled =
      (sampleList space seed (nInit maxIter eta s)).1 := rfl

theorem mkBracket_s (space : List Nat) (maxIter eta : Nat)
    (f : Nat → Nat → Option Int) (s seed : Nat) :
    (mkBracket space maxIter eta f s seed).s = s := rfl

theorem runSchedule_runBrackets (space : List Nat) (maxIter eta : Nat)
    (f : Nat → Nat → Option Int) :
    ∀ (sList : List Nat) (seed : Nat),
      runSchedule (runBrackets space maxIter eta f sList seed) =
        sList.map (fun s => (s, shapeLoop maxIter eta (nInit maxIter eta s)
          (nInit maxIter eta s) (rInit maxIter eta s)))
  | [], _ => rfl
  | s :: rest, seed => by
    rw [runBrackets, List.map_cons]
    have hrest := runSchedule_runBrackets space maxIter eta f rest
      (sampleList space seed (nInit maxIter eta s)).2
    rw [runSchedule, List.map_cons] at *
    refine congrArg₂ _ ?_ hrest
    rw [mkBracket_s, mkBracket_rungs]
    have hshape := shLoopF_shape maxIter eta f
      (withIdx (sampleList space seed (nInit maxIter eta s)).1 0).length
      (withIdx (sampleList space seed (nInit maxIter eta s)).1 0)
      (rInit maxIter eta s)
    rw [hshape, withIdx_length, sampleList_length]

theorem mem_allTrials {trace : List BracketResult} {t : Trial} :
    t ∈ allTrials trace ↔ ∃ b ∈ trace, ∃ rg ∈ b.rungs, t ∈ rg.trials := by
  simp only [allTrials, List.mem_flatten, List.mem_map]
  aesop

theorem mem_successes {trace : List BracketResult} {c : Nat} {v : Int} :
    (c, v) ∈ successes trace ↔
      ∃ t ∈ allTrials trace, t.cfg = c ∧ t.score = some v := by
  simp only [successes, List.mem_filterMap]
  constructor
  · rintro ⟨t, ht, hmap⟩
    match hs : t.score with
    | none => rw [hs] at hmap; cases hmap
    | some w =>
      rw [hs] at hmap
      simp only [Option.map_some', Option.some_inj, Prod.mk.injEq] at hmap
      exact ⟨t, ht, hmap.1, by rw [hs, hmap.2]⟩
  · rintro ⟨t, ht, hc, hv⟩
    exact ⟨t, ht, by rw [hv, hc]; rfl⟩

/-! ### Claim theorems -/

set_option maxRecDepth 40000

/-- C1: for `max_iter = 81` and `eta = 3`, `run` produces exactly the
reference bracket schedule of the notebook: five brackets
`s = 4, 3, 2, 1, 0` whose successive rungs' `(n_i, r_i)` pairs are
`(81,1),(27,3),(9,9),(3,27),(1,81)` for `s = 4` down to `(5,81)` for
`s = 0` — no other rungs and no other `(n, r)` values, for every search
space, evaluation function and seed. -/
theorem schedule_matches_refTable (space : List Nat) (f : Nat → Nat → Option Int)
    (seed : Nat) :
    runSchedule (runTrace space 81 3 f seed) = refTable := by
  rw [runTrace, runSchedule_runBrackets]
  decide

/-- C2 counterexample: the spec's stated closed form
`n = ceil(B / max_iter * eta^s / (s+1))` yields `34` at bracket `s = 3`
for `max_iter = 81, eta = 3`, while the reference table's first rung for
`s = 3` has `n = 27`. -/
theorem specFormulaN_mismatch :
    specFormulaN 81 3 3 = 34 ∧
      refTable[1]? = some (3, [(27, 3), (9, 9), (3, 27), (1, 81)]) ∧ (34 : Nat) ≠ 27 := by
  refine ⟨?_, by decide, by decide⟩
  rw [specFormulaN, show bigB 81 3 = 405 from by decide]
  rw [show ((405 : Nat) : ℚ) / ((81 : Nat) : ℚ) * ((3 : Nat) : ℚ) ^ (3 : Nat) /
      (((3 : Nat) : ℚ) + 1) = 135 / 4 from by norm_num]
  rw [Nat.ceil_eq_iff (by norm_num)]
  norm_num

/-- C2 amended: the allocation that reproduces the reference table's
first rungs for `max_iter = 81, eta = 3` uses the standard Hyperband
reference rounding `n = ceil(floor(B / max_iter / (s+1)) * eta^s)`
(`nInit`) together with `r = max_iter * eta^(-s)` (`rInit`, matching the
real-valued `specFormulaR` exactly on these brackets); the spec's
real-valued ceiling form gives `34, 15, 8` instead of `27, 9, 6` at
`s = 3, 2, 1`. -/
theorem nInit_rInit_match_refTable :
    ((List.range 5).map fun s => (nInit 81 3 s, rInit 81 3 s)) =
        [(5, 81), (6, 27), (9, 9), (27, 3), (81, 1)] ∧
      refTable.map (fun b => (b.1, b.2.head?)) =
        [(4, some (81, 1)), (3, some (27, 3)), (2, some (9, 9)),
          (1, some (6, 27)), (0, some (5, 81))] ∧
      ((List.range 5).map fun s => specFormulaR 81 3 s) = [81, 27, 9, 3, 1] ∧
      ((List.range 5).map fun s => specFormulaN 81 3 s) = [5, 8, 15, 34, 81] := by
  refine ⟨by decide, by decide, ?_, ?_⟩
  · rw [show List.range 5 = [0, 1, 2, 3, 4] from by decide]
    simp only [List.map_cons, List.map_nil, specFormulaR]
    norm_num
  · have hB : bigB 81 3 = 405 := by decide
    have h0 : specFormulaN 81 3 0 = 5 := by
      rw [specFormulaN, hB, Nat.ceil_eq_iff (by norm_num)]
      constructor <;> norm_num
    have h1 : specFormulaN 81 3 1 = 8 := by
      rw [specFormulaN, hB, Nat.ceil_eq_iff (by norm_num)]
      constructor <;> norm_num
    have h2 : specFormulaN 81 3 2 = 15 := by
      rw [specFormulaN, hB, Nat.ceil_eq_iff (by norm_num)]
      constructor <;> norm_num
    have h3 : specFormulaN 81 3 3 = 34 := by
      rw [specFormulaN, hB, Nat.ceil_eq_iff (by norm_num)]
      constructor <;> norm_num
    have h4 : specFormulaN 81 3 4 = 81 := by
      rw [specFormulaN, hB, Nat.ceil_eq_iff (by norm_num)]
      constructor <;> norm_num
    rw [show List.range 5 = [0, 1, 2, 3, 4] from by decide]
    simp only [List.map_cons, List.map_nil]
    rw [h0, h1, h2, h3, h4]

/-- C10: in the reference table for `max_iter = 81, eta = 3`, the total
resource `sum of n_i * r_i` of each bracket is `405, 324, 243, 324, 405`
for `s = 4, 3, 2, 1, 0`; each total is at most `B = 5 * max_iter = 405`,
and equality holds exactly for the brackets `s = 4` and `s = 0`. -/
theorem refTable_budget_sums :
    (refTable.map fun b => (b.1, (b.2.map fun p => p.1 * p.2).sum)) =
        [(4, 405), (3, 324), (2, 243), (1, 324), (0, 405)] ∧
      (refTable.all fun b => (b.2.map fun p => p.1 * p.2).sum ≤ 5 * 81) = true ∧
      (refTable.filter fun b =>
          (b.2.map fun p => p.1 * p.2).sum = 5 * 81).map (fun b => b.1) = [4, 0] := by
  refine ⟨by decide, by decide, by decide⟩

/-- C3 counterexample: in the run with search space `{7}`,
`max_iter = 81`, `eta = 3`, evaluator `fun c _ => some c` and seed `0`,
the brackets' rung population counts are
`[81,27,9,3,1], [27,9,3,1], [9,3,1], [6,2], [5]`: the brackets `s = 1`
and `s = 0` end with `2` and `5` surviving configurations, so the count
does not decrease until exactly one configuration remains. -/
theorem counts_not_reaching_one :
    countsOf (runTrace [7] 81 3 (fun c _ => some (c : Int)) 0) =
        [[81, 27, 9, 3, 1], [27, 9, 3, 1], [9, 3, 1], [6, 2], [5]] ∧
      ¬ (∀ counts ∈ countsOf (runTrace [7] 81 3 (fun c _ => some (c : Int)) 0),
          counts.getLast? = some 1) := by
  refine ⟨by decide, ?_⟩
  intro h
  have h5 := h [5] (by decide)
  simp at h5

theorem mem_runTrace_rep (space : List Nat) (maxIter eta : Nat)
    (f : Nat → Nat → Option Int) (seed : Nat) {b : BracketResult}
    (hb : b ∈ runTrace space maxIter eta f seed) :
    ∃ s seed', s ≤ sMaxOf maxIter eta ∧ b = mkBracket space maxIter eta f s seed' := by
  rw [runTrace] at hb
  obtain ⟨s, seed', hs, hbe⟩ := mem_runBrackets space maxIter eta f _ seed b hb
  rw [List.mem_reverse, List.mem_range] at hs
  exact ⟨s, seed', by omega, hbe⟩

/-- C3 amended: in every bracket of every run with `eta ≥ 2`, the number
of surviving configurations after each halving step equals
`floor(previous_count / eta)` and strictly decreases from rung to rung,
until at most one configuration remains or the next resource level
`r * eta` would exceed `max_iter` (the reference table's brackets `s = 1`
and `s = 0` stop with 2 and 5 survivors, so the count need not reach 1). -/
theorem counts_halve_until_stop (space : List Nat) (maxIter eta : Nat)
    (f : Nat → Nat → Option Int) (seed : Nat) (heta : 2 ≤ eta) :
    ∀ b ∈ runTrace space maxIter eta f seed,
      (∀ i a c, b.rungs[i]? = some a → b.rungs[i + 1]? = some c →
        c.trials.length = a.trials.length / eta ∧ c.trials.length < a.trials.length) ∧
      (∀ rg, b.rungs.getLast? = some rg →
        rg.trials.length ≤ 1 ∨ maxIter < rg.res * eta) := by
  intro b hb
  obtain ⟨s, seed', hs, rfl⟩ := mem_runTrace_rep space maxIter eta f seed hb
  rw [mkBracket_rungs]
  constructor
  · intro i a c ha hc
    have hstep := shLoopF_step maxIter eta f _ _ _ i a c ha hc
    have hclen : c.trials.length = a.trials.length / eta := by
      have h1 : (pairsOf c).length = (nextBase eta a).length := by rw [hstep.2]
      rwa [length_pairsOf, nextBase_length] at h1
    refine ⟨hclen, ?_⟩
    have hguard : 1 < a.trials.length ∧ a.res * eta ≤ maxIter := by
      have hlen := (List.getElem?_eq_some_iff.mp hc).1
      have hil : i < (shLoopF maxIter eta f
          (withIdx (sampleList space seed' (nInit maxIter eta s)).1 0).length
          (withIdx (sampleList space seed' (nInit maxIter eta s)).1 0)
          (rInit maxIter eta s)).length - 1 := by omega
      have hae : (shLoopF maxIter eta f
          (withIdx (sampleList space seed' (nInit maxIter eta s)).1 0).length
          (withIdx (sampleList space seed' (nInit maxIter eta s)).1 0)
          (rInit maxIter eta s))[i] = a := (List.getElem?_eq_some_iff.mp ha).2
      have hdl : a ∈ (shLoopF maxIter eta f
          (withIdx (sampleList space seed' (nInit maxIter eta s)).1 0).length
          (withIdx (sampleList space seed' (nInit maxIter eta s)).1 0)
          (rInit maxIter eta s)).dropLast := by
        have hidl : i < ((shLoopF maxIter eta f
            (withIdx (sampleList space seed' (nInit maxIter eta s)).1 0).length
            (withIdx (sampleList space seed' (nInit maxIter eta s)).1 0)
            (rInit maxIter eta s)).dropLast).length := by
          rw [List.length_dropLast]
          omega
        have := List.getElem_dropLast (shLoopF maxIter eta f
            (withIdx (sampleList space seed' (nInit maxIter eta s)).1 0).length
            (withIdx (sampleList space seed' (nInit maxIter eta s)).1 0)
            (rInit maxIter eta s)) i hidl
        rw [hae] at this
        rw [← this]
        exact List.getElem_mem hidl
      exact shLoopF_dropLast_guard maxIter eta f _ _ _ a hdl
    rw [hclen]
    exact Nat.div_lt_self (by omega) (by omega)
  · intro rg hrg
    exact shLoopF_last_stop maxIter eta f heta _ _ _
      (by rw [withIdx_length]) rg hrg

/-- C4: in every bracket of every run (with valid `eta ≥ 2`,
`max_iter ≥ 1`): a configuration discarded at the halving boundary of a
rung never appears in any later rung of that bracket; the rungs'
resource levels are strictly increasing, so no rung repeats a resource
level; and within each rung the trial identities (sample indices) are
pairwise distinct — hence no configuration instance is evaluated twice
in the same bracket at the same resource level. -/
theorem discarded_never_return (space : List Nat) (maxIter eta : Nat)
    (f : Nat → Nat → Option Int) (seed : Nat) (heta : 2 ≤ eta) (hmi : 1 ≤ maxIter) :
    ∀ b ∈ runTrace space maxIter eta f seed,
      (∀ (k m : Nat) (p : Nat × Nat) (a c : Rung), k < m →
        b.rungs[k]? = some a → b.rungs[m]? = some c →
        p ∈ pairsOf a → p ∉ nextBase eta a → p ∉ pairsOf c) ∧
      (∀ (k m : Nat) (a c : Rung), k < m →
        b.rungs[k]? = some a → b.rungs[m]? = some c → a.res < c.res) ∧
      (∀ rg ∈ b.rungs, (rg.trials.map Trial.idx).Nodup) := by
  intro b hb
  obtain ⟨s, seed', hs, rfl⟩ := mem_runTrace_rep space maxIter eta f seed hb
  rw [mkBracket_rungs]
  refine ⟨?_, ?_, ?_⟩
  · intro k m p a c hkm ha hc hpa hpd hpc
    have hml := (List.getElem?_eq_some_iff.mp hc).1
    have hk1 : k + 1 < (shLoopF maxIter eta f
        (withIdx (sampleList space seed' (nInit maxIter eta s)).1 0).length
        (withIdx (sampleList space seed' (nInit maxIter eta s)).1 0)
        (rInit maxIter eta s)).length := by omega
    obtain ⟨d, hd⟩ : ∃ d, (shLoopF maxIter eta f
        (withIdx (sampleList space seed' (nInit maxIter eta s)).1 0).length
        (withIdx (sampleList space seed' (nInit maxIter eta s)).1 0)
        (rInit maxIter eta s))[k + 1]? = some d :=
      ⟨_, List.getElem?_eq_some_iff.mpr ⟨hk1, rfl⟩⟩
    have hstep := shLoopF_step maxIter eta f _ _ _ k a d ha hd
    have hpd' : p ∈ pairsOf d := by
      exact shLoopF_pairs_mono maxIter eta f _ _ _ (k + 1) d hd m (by omega) c hc p hpc
    rw [hstep.2] at hpd'
    exact hpd hpd'
  · intro k m a c hkm ha hc
    have hra := shLoopF_res_pow maxIter eta f _ _ _ k a ha
    have hrc := shLoopF_res_pow maxIter eta f _ _ _ m c hc
    rw [hra, hrc]
    have hr1 : 1 ≤ rInit maxIter eta s := rInit_pos maxIter eta heta hmi hs
    have hpow : eta ^ k < eta ^ m := Nat.pow_lt_pow_right (by omega) hkm
    nlinarith
  · intro rg hrg
    exact shLoopF_idx_nodup maxIter eta f _ _ _
      (withIdx_idx_nodup _ 0) rg hrg

theorem runTrace_trial_score (space : List Nat) (maxIter eta : Nat)
    (f : Nat → Nat → Option Int) (seed : Nat) :
    ∀ b ∈ runTrace space maxIter eta f seed, ∀ rg ∈ b.rungs, ∀ t ∈ rg.trials,
      t.score = f t.cfg rg.res := by
  intro b hb
  obtain ⟨s, seed', hs, rfl⟩ := mem_runTrace_rep space maxIter eta f seed hb
  rw [mkBracket_rungs]
  exact shLoopF_score maxIter eta f _ _ _

/-- C5: in every run, a trial on which `evaluate_fn` raised has the
worst sentinel (`none`) recorded as its score (every recorded score is
exactly what `evaluate_fn` returned at that rung's resource); the
sentinel ranks strictly below every successful score, so the failed
configuration is eligible for discard at the next halving; the run
always continues to completion over all `s_max + 1` brackets — the
failure is never propagated — and the failures are surfaced only as the
aggregated `runDiagnostics` collected from the completed trace. -/
theorem failure_recorded_as_sentinel (space : List Nat) (maxIter eta : Nat)
    (f : Nat → Nat → Option Int) (seed : Nat) :
    (∀ b ∈ runTrace space maxIter eta f seed, ∀ rg ∈ b.rungs, ∀ t ∈ rg.trials,
      t.score = f t.cfg rg.res) ∧
    ((runTrace space maxIter eta f seed).length = sMaxOf maxIter eta + 1) ∧
    (∀ (a b : Trial) (z : Int), a.score = some z → b.score = none →
      rankRel a b ∧ ¬ rankRel b a) ∧
    (∀ t : Trial, t ∈ runDiagnostics (runTrace space maxIter eta f seed) ↔
      t ∈ allTrials (runTrace space maxIter eta f seed) ∧ t.score = none) := by
  refine ⟨runTrace_trial_score space maxIter eta f seed, ?_, ?_, ?_⟩
  · have hmap := runBrackets_map_s space maxIter eta f
      ((List.range (sMaxOf maxIter eta + 1)).reverse) seed
    have hlen := congrArg List.length hmap
    rw [List.length_map] at hlen
    rw [runTrace, hlen]
    simp
  · intro a b z ha hb
    constructor
    · simp [rankRel, rankB, ha, hb, sentinelLtB]
    · simp [rankRel, rankB, ha, hb, sentinelLtB]
  · intro t
    rw [runDiagnostics, List.mem_filter, Option.isNone_iff_eq_none]

/-- C6: a configuration for which every `evaluate_fn` call raises is
never returned as the best configuration of a valid run; and when every
configuration fails wholly, `run` returns the designated
`noValidResult` outcome instead of any configuration with a fabricated
sentinel score. -/
theorem failed_config_never_wins (space : List Nat) (maxIter eta : Nat)
    (f : Nat → Nat → Option Int) (seed : Nat)
    (hne : space ≠ []) (hmi : 1 ≤ maxIter) (heta : 2 ≤ eta) :
    (∀ (c : Nat) (v : Int), (∀ r', f c r' = none) →
      run space maxIter eta f seed ≠ .ok (c, v)) ∧
    ((∀ c r', f c r' = none) →
      run space maxIter eta f seed = .error .noValidResult) := by
  have hvalid : ¬ (eta < 2 ∨ maxIter = 0) := by omega
  constructor
  · intro c v hfail hok
    rw [run, if_neg hne, if_neg hvalid] at hok
    cases hbest : bestOf (runTrace space maxIter eta f seed) with
    | none => rw [hbest] at hok; cases hok
    | some p =>
      rw [hbest] at hok
      have hp : p = (c, v) := by
        cases hok
        rfl
      subst hp
      rcases foldl_bestStep_mem _ none (c, v) hbest with hmem | habs
      · obtain ⟨t, ht, hc, hv⟩ := mem_successes.mp hmem
        obtain ⟨b, hb, rg, hrg, htr⟩ := mem_allTrials.mp ht
        have hscore := runTrace_trial_score space maxIter eta f seed b hb rg hrg t htr
        rw [hscore, hc, hfail rg.res] at hv
        cases hv
      · cases habs
  · intro hfail
    have hsucc : successes (runTrace space maxIter eta f seed) = [] := by
      rw [successes, List.filterMap_eq_nil_iff]
      intro t ht
      obtain ⟨b, hb, rg, hrg, htr⟩ := mem_allTrials.mp ht
      have hscore := runTrace_trial_score space maxIter eta f seed b hb rg hrg t htr
      rw [hscore, hfail]
      rfl
    rw [run, if_neg hne, if_neg hvalid, bestOf, hsucc]
    rfl

/-- C7: a run is a deterministic function of the seed, the search space
and the evaluation function — two executions with identical inputs
produce identical traces (hence identical bracket schedules and
identical sampled configurations) and identical results; and sampling is
total and stays inside the declared space (length `n` even when the
discrete space holds fewer than `n` elements, i.e. deterministic
sampling with replacement). -/
theorem run_deterministic (space : List Nat) (maxIter eta : Nat)
    (f : Nat → Nat → Option Int) (seed₁ seed₂ : Nat) (hseed : seed₁ = seed₂) :
    runTrace space maxIter eta f seed₁ = runTrace space maxIter eta f seed₂ ∧
    run space maxIter eta f seed₁ = run space maxIter eta f seed₂ ∧
    (∀ n : Nat, (sampleList space seed₁ n).1.length = n ∧
      (space ≠ [] → ∀ c ∈ (sampleList space seed₁ n).1, c ∈ space)) := by
  subst hseed
  exact ⟨rfl, rfl, fun n =>
    ⟨sampleList_length space n seed₁, fun hne => sampleList_mem space hne n seed₁⟩⟩

/-- C8: for every valid input (non-empty space, positive `max_iter`,
`eta ≥ 2`) the run is a terminating total function whose outer loop
visits exactly the bracket indices `s_max = floor(log_eta(max_iter))`
down to `0`, once each in that order; within each bracket the `i`-th
rung's resource is `rInit * eta ^ i` (the resource is multiplied by
`eta` after each rung); every non-final rung satisfies the continuation
guard (more than one survivor and `r * eta ≤ max_iter`), and the final
rung satisfies the stop condition (at most one survivor or `r * eta`
would exceed `max_iter`). -/
theorem brackets_visited_once_and_stop (space : List Nat) (maxIter eta : Nat)
    (f : Nat → Nat → Option Int) (seed : Nat)
    (_hne : space ≠ []) (hmi : 1 ≤ maxIter) (heta : 2 ≤ eta) :
    sMaxOf maxIter eta = Nat.log eta maxIter ∧
    (runTrace space maxIter eta f seed).map BracketResult.s =
      (List.range (sMaxOf maxIter eta + 1)).reverse ∧
    (∀ b ∈ runTrace space maxIter eta f seed, ∀ (i : Nat) (rg : Rung),
      b.rungs[i]? = some rg → rg.res = rInit maxIter eta b.s * eta ^ i) ∧
    (∀ b ∈ runTrace space maxIter eta f seed, ∀ rg ∈ b.rungs.dropLast,
      1 < rg.trials.length ∧ rg.res * eta ≤ maxIter) ∧
    (∀ b ∈ runTrace space maxIter eta f seed, ∀ rg : Rung,
      b.rungs.getLast? = some rg →
      rg.trials.length ≤ 1 ∨ maxIter < rg.res * eta) := by
  refine ⟨sMaxOf_eq_log maxIter eta heta hmi, ?_, ?_, ?_, ?_⟩
  · rw [runTrace]
    exact runBrackets_map_s space maxIter eta f _ seed
  · intro b hb i rg hrg
    obtain ⟨s, seed', hs, rfl⟩ := mem_runTrace_rep space maxIter eta f seed hb
    rw [mkBracket_rungs] at hrg
    rw [mkBracket_s]
    exact shLoopF_res_pow maxIter eta f _ _ _ i rg hrg
  · intro b hb rg hrg
    obtain ⟨s, seed', hs, rfl⟩ := mem_runTrace_rep space maxIter eta f seed hb
    rw [mkBracket_rungs] at hrg
    exact shLoopF_dropLast_guard maxIter eta f _ _ _ rg hrg
  · intro b hb rg hrg
    obtain ⟨s, seed', hs, rfl⟩ := mem_runTrace_rep space maxIter eta f seed hb
    rw [mkBracket_rungs] at hrg
    exact shLoopF_last_stop maxIter eta f heta _ _ _ (by rw [withIdx_length]) rg hrg

/-- C9: for the search space `{x : integer in [1,10]}`, the
deterministic monotonic evaluator `evaluate_fn(cfg, r) = cfg.x`,
`max_iter = 81` and `eta = 3`, the run terminates and returns the best
configuration `x = 10` with score `10`, for every random seed under
which the value `10` is among the sampled configurations. -/
theorem monotone_eval_returns_max (seed : Nat)
    (h10 : 10 ∈ allSampled (runTrace [1, 2, 3, 4, 5, 6, 7, 8, 9, 10] 81 3
      (fun c _ => some (c : Int)) seed)) :
    run [1, 2, 3, 4, 5, 6, 7, 8, 9, 10] 81 3 (fun c _ => some (c : Int)) seed =
      .ok (10, 10) := by
  have hne : ([1, 2, 3, 4, 5, 6, 7, 8, 9, 10] : List Nat) ≠ [] := by decide
  -- the trial (10, j) of the first rung of the bracket that sampled 10
  rw [allSampled] at h10
  obtain ⟨l, hl, h10l⟩ := List.mem_flatten.mp h10
  obtain ⟨b, hb, rfl⟩ := List.mem_map.mp hl
  obtain ⟨s, sd, hs, rfl⟩ := mem_runTrace_rep _ 81 3 _ seed hb
  rw [mkBracket_sampled] at h10l
  obtain ⟨j, hj⟩ := withIdx_exists h10l 0
  obtain ⟨tl, htl⟩ := shLoopF_cons 81 3 (fun c _ => some (c : Int))
    (withIdx (sampleList [1, 2, 3, 4, 5, 6, 7, 8, 9, 10] sd (nInit 81 3 s)).1 0).length
    (withIdx (sampleList [1, 2, 3, 4, 5, 6, 7, 8, 9, 10] sd (nInit 81 3 s)).1 0)
    (rInit 81 3 s)
  have hrg0 : evalRung (fun c _ => some (c : Int)) (rInit 81 3 s)
      (withIdx (sampleList [1, 2, 3, 4, 5, 6, 7, 8, 9, 10] sd (nInit 81 3 s)).1 0) ∈
      (mkBracket [1, 2, 3, 4, 5, 6, 7, 8, 9, 10] 81 3
        (fun c _ => some (c : Int)) s sd).rungs := by
    rw [mkBracket_rungs, htl]
    exact List.mem_cons_self _ _
  have ht : (⟨10, j, some (10 : Int)⟩ : Trial) ∈
      (evalRung (fun c _ => some (c : Int)) (rInit 81 3 s)
        (withIdx (sampleList [1, 2, 3, 4, 5, 6, 7, 8, 9, 10] sd (nInit 81 3 s)).1 0)).trials :=
    List.mem_map.mpr ⟨(10, j), hj, rfl⟩
  have hsucc : ((10 : Nat), (10 : Int)) ∈
      successes (runTrace [1, 2, 3, 4, 5, 6, 7, 8, 9, 10] 81 3
        (fun c _ => some (c : Int)) seed) :=
    mem_successes.mpr ⟨⟨10, j, some (10 : Int)⟩,
      mem_allTrials.mpr ⟨_, hb, _, hrg0, ht⟩, rfl, rfl⟩
  -- every successful observation has score equal to its config, at most 10
  have hbound : ∀ q ∈ successes (runTrace [1, 2, 3, 4, 5, 6, 7, 8, 9, 10] 81 3
      (fun c _ => some (c : Int)) seed), q.2 ≤ (10 : Int) ∧ (q.1 : Int) = q.2 := by
    rintro ⟨c, v⟩ hq
    obtain ⟨t', ht', hc, hv⟩ := mem_successes.mp hq
    obtain ⟨b', hb', rg', hrg', htr'⟩ := mem_allTrials.mp ht'
    have hscore := runTrace_trial_score _ 81 3 _ seed b' hb' rg' hrg' t' htr'
    rw [hscore] at hv
    simp only [Option.some_inj] at hv
    obtain ⟨s', sd', hs', rfl⟩ := mem_runTrace_rep _ 81 3 _ seed hb'
    rw [mkBracket_rungs] at hrg'
    have hpair := shLoopF_mem_pairs 81 3 (fun c _ => some (c : Int)) _ _ _ rg' hrg' t' htr'
    have hcfg : t'.cfg ∈ ([1, 2, 3, 4, 5, 6, 7, 8, 9, 10] : List Nat) :=
      sampleList_mem _ hne _ sd' t'.cfg (mem_withIdx_fst hpair)
    have hle10 : t'.cfg ≤ 10 := by
      have hall : ∀ x ∈ ([1, 2, 3, 4, 5, 6, 7, 8, 9, 10] : List Nat), x ≤ 10 := by decide
      exact hall t'.cfg hcfg
    subst hc
    refine ⟨?_, ?_⟩
    · show v ≤ (10 : Int)
      rw [← hv]
      exact_mod_cast hle10
    · show ((t'.cfg : Int)) = v
      exact hv
  -- the fold therefore returns exactly (10, 10)
  obtain ⟨p, hp, h10le⟩ :=
    foldl_bestStep_ge_of_mem _ none ((10 : Nat), (10 : Int)) hsucc
  have hpmem : p ∈ successes (runTrace [1, 2, 3, 4, 5, 6, 7, 8, 9, 10] 81 3
      (fun c _ => some (c : Int)) seed) := by
    rcases foldl_bestStep_mem _ none p hp with hmem | habs
    · exact hmem
    · cases habs
  obtain ⟨hple, hpeq⟩ := hbound p hpmem
  have hp2 : p.2 = (10 : Int) := le_antisymm hple h10le
  have hp1 : p.1 = 10 := by
    have : (p.1 : Int) = (10 : Int) := by rw [hpeq, hp2]
    exact_mod_cast this
  have hpp : p = ((10 : Nat), (10 : Int)) := by
    cases p
    simp_all
  rw [run, if_neg hne, if_neg (by omega : ¬ ((3 : Nat) < 2 ∨ (81 : Nat) = 0))]
  have hbest : bestOf (runTrace [1, 2, 3, 4, 5, 6, 7, 8, 9, 10] 81 3
      (fun c _ => some (c : Int)) seed) = some ((10 : Nat), (10 : Int)) := by
    rw [bestOf, ← hpp]
    exact hp
  rw [hbest]

/-- Witness for `counts_halve_until_stop`: in the concrete run over
`{1,2,3}` with `max_iter = 6`, `eta = 2`, seed 1, the first bracket's
second rung holds `4 / 2 = 2` trials. -/
theorem counts_halve_until_stop_witness :
    (((runTrace [1, 2, 3] 6 2 (fun c _ => some (c : Int)) 1).get
        ⟨0, by decide⟩).rungs[1]?).map (fun rg => rg.trials.length) = some 2 := by
  have hb : (runTrace [1, 2, 3] 6 2 (fun c _ => some (c : Int)) 1).get ⟨0, by decide⟩ ∈
      runTrace [1, 2, 3] 6 2 (fun c _ => some (c : Int)) 1 :=
    List.get_mem _ _ _
  have h := counts_halve_until_stop [1, 2, 3] 6 2 (fun c _ => some (c : Int)) 1
    (by omega) _ hb
  cases h0 : ((runTrace [1, 2, 3] 6 2 (fun c _ => some (c : Int)) 1).get
      ⟨0, by decide⟩).rungs[0]? with
  | none =>
    have hsome : (((runTrace [1, 2, 3] 6 2 (fun c _ => some (c : Int)) 1).get
        ⟨0, by decide⟩).rungs[0]?).isSome = true := by decide
    rw [h0] at hsome
    cases hsome
  | some a =>
    cases h1 : ((runTrace [1, 2, 3] 6 2 (fun c _ => some (c : Int)) 1).get
        ⟨0, by decide⟩).rungs[1]? with
    | none =>
      have hsome : (((runTrace [1, 2, 3] 6 2 (fun c _ => some (c : Int)) 1).get
          ⟨0, by decide⟩).rungs[1]?).isSome = true := by decide
      rw [h1] at hsome
      cases hsome
    | some c =>
      have hc := (h.1 0 a c h0 h1).1
      have ha4 : a.trials.length = 4 := by
        have h4 : (((runTrace [1, 2, 3] 6 2 (fun c _ => some (c : Int)) 1).get
            ⟨0, by decide⟩).rungs[0]?).map (fun rg => rg.trials.length) = some 4 := by
          decide
        rw [h0, Option.map_some', Option.some_inj] at h4
        exact h4
      rw [Option.map_some', hc, ha4]

/-- Witness for `discarded_never_return`: in the concrete run over
`{1,2,3}` with `max_iter = 6`, `eta = 2`, seed 1, the first bracket's
first rung has pairwise-distinct trial identities. -/
theorem discarded_never_return_witness :
    ((((runTrace [1, 2, 3] 6 2 (fun c _ => some (c : Int)) 1).get
        ⟨0, by decide⟩).rungs.head (by decide)).trials.map Trial.idx).Nodup := by
  have hb : (runTrace [1, 2, 3] 6 2 (fun c _ => some (c : Int)) 1).get ⟨0, by decide⟩ ∈
      runTrace [1, 2, 3] 6 2 (fun c _ => some (c : Int)) 1 :=
    List.get_mem _ _ _
  exact (discarded_never_return [1, 2, 3] 6 2 (fun c _ => some (c : Int)) 1
    (by omega) (by omega) _ hb).2.2 _ (List.head_mem _)

/-- Witness for `failure_recorded_as_sentinel`: with the always-failing
evaluator the run still visits all `s_max + 1` brackets, and a trial
with a successful score is ranked strictly before one holding the
sentinel. -/
theorem failure_recorded_as_sentinel_witness :
    (runTrace [1] 6 2 (fun _ _ => (none : Option Int)) 0).length = sMaxOf 6 2 + 1 ∧
      (rankRel ⟨0, 0, some 5⟩ ⟨1, 1, none⟩ ∧ ¬ rankRel ⟨1, 1, none⟩ ⟨0, 0, some 5⟩) :=
  ⟨(failure_recorded_as_sentinel [1] 6 2 (fun _ _ => (none : Option Int)) 0).2.1,
    (failure_recorded_as_sentinel [1] 6 2 (fun _ _ => (none : Option Int)) 0).2.2.1
      ⟨0, 0, some 5⟩ ⟨1, 1, none⟩ 5 rfl rfl⟩

/-- Witness for `failed_config_never_wins`: the run over `{1,2,3}` with
`max_iter = 6`, `eta = 2` and an evaluator that always raises returns
the designated no-valid-result outcome. -/
theorem failed_config_never_wins_witness :
    run [1, 2, 3] 6 2 (fun _ _ => (none : Option Int)) 7 = .error .noValidResult :=
  (failed_config_never_wins [1, 2, 3] 6 2 (fun _ _ => (none : Option Int)) 7
    (by decide) (by omega) (by omega)).2 (fun _ _ => rfl)

/-- Witness for `run_deterministic`: two executions at seed 5 over
`{1,2}` agree, and sampling 3 configurations from the 2-element space
still yields exactly 3 samples. -/
theorem run_deterministic_witness :
    runTrace [1, 2] 6 2 (fun c _ => some (c : Int)) 5 =
        runTrace [1, 2] 6 2 (fun c _ => some (c : Int)) 5 ∧
      (sampleList [1, 2] 5 3).1.length = 3 :=
  ⟨(run_deterministic [1, 2] 6 2 (fun c _ => some (c : Int)) 5 5 rfl).1,
    ((run_deterministic [1, 2] 6 2 (fun c _ => some (c : Int)) 5 5 rfl).2.2 3).1⟩

/-- Witness for `brackets_visited_once_and_stop`: for `max_iter = 6`,
`eta = 2` the bracket bound is `floor(log_2 6) = 2` and the run over
`{1,2,3}` visits the brackets `2, 1, 0` in order. -/
theorem brackets_visited_once_and_stop_witness :
    sMaxOf 6 2 = Nat.log 2 6 ∧
      (runTrace [1, 2, 3] 6 2 (fun c _ => some (c : Int)) 9).map BracketResult.s =
        (List.range (sMaxOf 6 2 + 1)).reverse :=
  ⟨(brackets_visited_once_and_stop [1, 2, 3] 6 2 (fun c _ => some (c : Int)) 9
      (by decide) (by omega) (by omega)).1,
    (brackets_visited_once_and_stop [1, 2, 3] 6 2 (fun c _ => some (c : Int)) 9
      (by decide) (by omega) (by omega)).2.1⟩

/-- Witness for `monotone_eval_returns_max`: at seed 0 the value 10 is
indeed sampled, and the run returns it with score 10. -/
theorem monotone_eval_returns_max_witness :
    run [1, 2, 3, 4, 5, 6, 7, 8, 9, 10] 81 3 (fun c _ => some (c : Int)) 0 =
      .ok (10, 10) :=
  monotone_eval_returns_max 0 (by decide)
